import Mathlib

/-!
# Verification of the financial_simulator engine

A shallow embedding of the core of `financial_simulator` (the Timing
generators, value generators, composed event builders, the orchestration
loop `Simulation.run`, the ensemble builder and the result-serialization
contract), with theorems settling the frozen claims about it.

Conventions of the embedding:

* Instants (`datetime`) are modelled as natural numbers (days since an
  epoch); Python's `datetime` values are totally ordered and the code
  only compares them and adds day-granularity `timedelta`s.
* Cash amounts and rates (`float`) are modelled as rationals `ℚ`, i.e.
  exact arithmetic; the one genuinely non-rational operation, the
  fractional-exponent power in `AppreciationProcess.advance`, is
  modelled over `ℝ`.
* Loops of the source that need not terminate are given explicit fuel:
  such a function returns `Option`, with `none` meaning the loop was
  still running when the fuel ran out (i.e. the only way a run of the
  real code can fail to produce the value).
* The calendar-month function `datetime.month` (used only by
  `SeasonalTiming`) is abstracted as a parameter `month : ℕ → ℕ`; no
  theorem below depends on its values.
-/

namespace FinSim

/-- The internal state of a `Timing` (`time_generator.py`): one
constructor per variant, holding exactly the mutable fields the Python
classes hold.  `RandomTiming`'s configuration fields (`start`, `end`,
`n`, `distribution`) only feed the random draw made in `reset()`; the
state that `next_time` reads and writes is the drawn sorted list
`times` and the cursor `index`, which is what is modelled. -/
inductive TimingState : Type
  | oneTime (time : ℕ) (fired : Bool)
  | interval (ivl : ℕ) (startTime : Option ℕ) (currentNext : Option ℕ)
  | random (times : List ℕ) (index : ℕ)
  | seasonal (months : List ℕ) (inner : TimingState)
  deriving DecidableEq, Repr

/-- The `while self.current_next < current: self.current_next += self.interval`
loop of `IntervalTiming.next_time`.  For `0 < ivl` this is exactly the
source loop; for `ivl = 0` the source loop diverges whenever
`cursor < current` (the spec calls a zero interval invalid), and the
model returns the cursor unchanged instead. -/
def catchUp (ivl cursor current : ℕ) : ℕ :=
  if h : 0 < ivl ∧ cursor < current then catchUp ivl (cursor + ivl) current
  else cursor
termination_by current - cursor
decreasing_by omega

/-- The `while self.index < len(self.times) and self.times[self.index] < current`
loop of `RandomTiming.next_time`. -/
def skipIndex (times : List ℕ) (index current : ℕ) : ℕ :=
  if h : index < times.length ∧ times.getD index 0 < current then
    skipIndex times (index + 1) current
  else index
termination_by times.length - index
decreasing_by omega

/-- `Timing.next_time(current, end)` for every variant, returning the
emitted instant (or `none`) together with the mutated timing state.
`fuel` bounds only the `SeasonalTiming` skip loop (`while nt is not None
and nt.month not in self.months`), the one loop of `next_time` whose
termination depends on the inner timing advancing; an outer `none`
means that loop was still running when the fuel ran out. -/
def nextTimeF (month : ℕ → ℕ) : ℕ → TimingState → ℕ → ℕ →
    Option (Option ℕ × TimingState)
  | _, .oneTime t f, c, e =>
      some (if f = false ∧ c ≤ t ∧ t ≤ e then (some t, .oneTime t f)
            else (none, .oneTime t f))
  | _, .interval ivl st cur, c, e =>
      let cur0 := cur.getD (match st with | none => c + ivl | some s0 => s0)
      let cur1 := catchUp ivl cur0 c
      some (if e < cur1 then (none, .interval ivl st (some cur1))
            else (some cur1, .interval ivl st (some cur1)))
  | _, .random ts idx, c, e =>
      let idx1 := skipIndex ts idx c
      some (if idx1 < ts.length ∧ ts.getD idx1 0 ≤ e then
              (some (ts.getD idx1 0), .random ts idx1)
            else (none, .random ts idx1))
  | 0, .seasonal _ _, _, _ => none
  | F + 1, .seasonal ms inner, c, e =>
      match nextTimeF month F inner c e with
      | none => none
      | some (none, s1) => some (none, .seasonal ms s1)
      | some (some t, s1) =>
          if month t ∈ ms then some (some t, .seasonal ms s1)
          else nextTimeF month F (.seasonal ms s1) t e

/-- Unfolding `nextTimeF` on a `OneTimeTiming` state, for any fuel. -/
@[simp] lemma nextTimeF_oneTime (month : ℕ → ℕ) (F t : ℕ) (f : Bool) (c e : ℕ) :
    nextTimeF month F (.oneTime t f) c e
      = some (if f = false ∧ c ≤ t ∧ t ≤ e then (some t, .oneTime t f)
              else (none, .oneTime t f)) := by
  cases F <;> rfl

/-- Unfolding `nextTimeF` on an `IntervalTiming` state, for any fuel. -/
@[simp] lemma nextTimeF_interval (month : ℕ → ℕ) (F ivl : ℕ) (st cur : Option ℕ)
    (c e : ℕ) :
    nextTimeF month F (.interval ivl st cur) c e
      = some (let cur0 := cur.getD (match st with | none => c + ivl | some s0 => s0)
              let cur1 := catchUp ivl cur0 c
              if e < cur1 then (none, .interval ivl st (some cur1))
              else (some cur1, .interval ivl st (some cur1))) := by
  cases F <;> rfl

/-- Unfolding `nextTimeF` on a `RandomTiming` state, for any fuel. -/
@[simp] lemma nextTimeF_random (month : ℕ → ℕ) (F : ℕ) (ts : List ℕ) (idx c e : ℕ) :
    nextTimeF month F (.random ts idx) c e
      = some (let idx1 := skipIndex ts idx c
              if idx1 < ts.length ∧ ts.getD idx1 0 ≤ e then
                (some (ts.getD idx1 0), .random ts idx1)
              else (none, .random ts idx1)) := by
  cases F <;> rfl

/-- Unfolding `nextTimeF` on a `SeasonalTiming` state with fuel. -/
lemma nextTimeF_seasonal (month : ℕ → ℕ) (F : ℕ) (ms : List ℕ)
    (inner : TimingState) (c e : ℕ) :
    nextTimeF month (F + 1) (.seasonal ms inner) c e
      = match nextTimeF month F inner c e with
        | none => none
        | some (none, s1) => some (none, .seasonal ms s1)
        | some (some t, s1) =>
            if month t ∈ ms then some (some t, .seasonal ms s1)
            else nextTimeF month F (.seasonal ms s1) t e := rfl

/-- Seasonal stepping when the inner call runs out of fuel. -/
lemma nextTimeF_seasonal_fuel (month : ℕ → ℕ) (F : ℕ) (ms : List ℕ)
    (inner : TimingState) (c e : ℕ)
    (h : nextTimeF month F inner c e = none) :
    nextTimeF month (F + 1) (.seasonal ms inner) c e = none := by
  rw [nextTimeF_seasonal, h]

/-- Seasonal stepping when the inner timing yields nothing. -/
lemma nextTimeF_seasonal_none (month : ℕ → ℕ) (F : ℕ) (ms : List ℕ)
    (inner s1 : TimingState) (c e : ℕ)
    (h : nextTimeF month F inner c e = some (none, s1)) :
    nextTimeF month (F + 1) (.seasonal ms inner) c e
      = some (none, .seasonal ms s1) := by
  rw [nextTimeF_seasonal, h]

/-- Seasonal stepping when the inner timing yields an instant: keep it
if its month qualifies, otherwise loop from that instant. -/
lemma nextTimeF_seasonal_some (month : ℕ → ℕ) (F : ℕ) (ms : List ℕ)
    (inner s1 : TimingState) (c e t : ℕ)
    (h : nextTimeF month F inner c e = some (some t, s1)) :
    nextTimeF month (F + 1) (.seasonal ms inner) c e
      = if month t ∈ ms then some (some t, .seasonal ms s1)
        else nextTimeF month F (.seasonal ms s1) t e := by
  rw [nextTimeF_seasonal, h]

/-- `Timing.reset()` for every variant.  `RandomTiming.reset` re-draws
its instants from the (externally seeded) random source and sorts them;
the draw itself is outside the state, so the model resets the read
cursor and keeps the held sorted list. -/
def resetTiming : TimingState → TimingState
  | .oneTime t _ => .oneTime t false
  | .interval ivl st _ => .interval ivl st st
  | .random ts _ => .random ts 0
  | .seasonal ms inner => .seasonal ms (resetTiming inner)

/-- A sequence of `next_time(current, end)` calls against one timing,
threading its state; each entry of the result pairs the call's
arguments with the instant it returned.  The trace stops early if a
call runs out of fuel (the real loop would still be running). -/
def timingTrace (month : ℕ → ℕ) (fuel : ℕ) (s : TimingState) :
    List (ℕ × ℕ) → List ((ℕ × ℕ) × Option ℕ) × TimingState
  | [] => ([], s)
  | (c, e) :: rest =>
      match nextTimeF month fuel s c e with
      | none => ([], s)
      | some (r, s1) =>
          (((c, e), r) :: (timingTrace month fuel s1 rest).1,
           (timingTrace month fuel s1 rest).2)

/-! ## Value generators (`value_generator.py`)

The claims exercise `FixedValue` and `VariableRateLoanValue`; those two
variants are embedded.  (`GrowingValue` compounds by a fractional-power
factor and `DistributionValue`/`RateChangeValue` draw from the ambient
random source; none of the frozen claims is about them.) -/

/-- A metadata value: the loan generator emits numbers, and
`RateChangeValue` emits a nested state patch under `update_state`. -/
inductive MValue : Type
  | num (q : ℚ)
  | str (s : String)
  | stateMap (m : List (String × ℚ))
  deriving DecidableEq, Repr

/-- The fields of `VariableRateLoanValue`: configuration plus the
mutable amortization state (`balance`, `month`, `last_time`). -/
structure LoanState where
  principal : ℚ
  initialRate : ℚ
  termMonths : ℕ
  rateKey : String
  balance : ℚ
  month : ℕ
  lastTime : Option ℕ
  deriving DecidableEq, Repr

/-- `VariableRateLoanValue.get_value(time, sim)`: returns the (signed)
cash value, the metadata, and the mutated loan state.  `state` is
`sim.state`.  Python raises `ZeroDivisionError` when `r - 1 == 0`
(possible only when `1 + monthly_rate` is a root of unity, i.e.
`monthly_rate ∈ {0, -2}`; the former is the special-cased branch); the
model's `ℚ` division returns 0 there. -/
def loanGetValue (L : LoanState) (time : ℕ) (state : List (String × ℚ)) :
    ℚ × List (String × MValue) × LoanState :=
  if L.termMonths ≤ L.month ∨ L.balance ≤ 0 then (0, [], L)
  else
    let currentRate := (state.lookup L.rateKey).getD L.initialRate
    let monthlyRate := currentRate / 12
    let remainingMonths := L.termMonths - L.month
    let payment :=
      if monthlyRate = 0 then L.balance / remainingMonths
      else
        let r := (1 + monthlyRate) ^ remainingMonths
        L.balance * monthlyRate * r / (r - 1)
    let interest := L.balance * monthlyRate
    let principalPay0 := payment - interest
    let principalPay := if L.balance < principalPay0 then L.balance else principalPay0
    let payment := if L.balance < principalPay0 then interest + L.balance else payment
    let balance1 := L.balance - principalPay
    (-payment,
     [("interest", .num interest), ("principal", .num principalPay),
      ("rate", .num currentRate), ("remaining_balance", .num balance1)],
     { L with balance := balance1, month := L.month + 1, lastTime := some time })

/-- A sequence of `get_value` calls against one loan generator: each
call supplies the instant and the `sim.state` mapping it reads. -/
def loanTrace (L : LoanState) :
    List (ℕ × List (String × ℚ)) → List (ℚ × List (String × MValue)) × LoanState
  | [] => ([], L)
  | (t, st) :: rest =>
      let (v, m, L1) := loanGetValue L t st
      let (out, LF) := loanTrace L1 rest
      ((v, m) :: out, LF)

/-- The state of a `ValueGenerator`, one constructor per embedded variant. -/
inductive ValueGenState : Type
  | fixed (value : ℚ)
  | loan (L : LoanState)
  deriving DecidableEq, Repr

/-- `ValueGenerator.get_value(time, sim)` for the embedded variants. -/
def getValue : ValueGenState → ℕ → List (String × ℚ) →
    ℚ × List (String × MValue) × ValueGenState
  | .fixed v, _, _ => (v, [], .fixed v)
  | .loan L, t, st =>
      let (v, m, L1) := loanGetValue L t st
      (v, m, .loan L1)

/-- `ValueGenerator.reset()` for the embedded variants. -/
def resetValueGen : ValueGenState → ValueGenState
  | .fixed v => .fixed v
  | .loan L => .loan { L with balance := L.principal, month := 0, lastTime := none }

/-! ## Dictionaries

Python `dict`s keyed by strings are modelled as association lists in
insertion order; `d.update(u)` (and the merge `{**d, **u}`) overwrites
the values of existing keys in place and appends `u`'s new keys. -/

/-- `d.update(u)` / `{**d, **u}` on string-keyed dictionaries. -/
def dictUpdate {α : Type} (d u : List (String × α)) : List (String × α) :=
  d.map (fun p => match u.lookup p.1 with | some v => (p.1, v) | none => p)
    ++ u.filter (fun q => (d.lookup q.1).isNone)

/-! ## Events and composed builders (`event.py`) -/

/-- A scenario-parameter value (`Simulation.params` is `Dict[str, any]`):
the distributions sample numbers (Normal/Uniform/Triangular) or
datetimes (`DateDistribution`); a factory may also install plain
strings. -/
inductive PValue : Type
  | num (q : ℚ)
  | str (s : String)
  | dtime (t : ℕ)
  deriving DecidableEq, Repr

/-- The `Event` dataclass: `{time, value, metadata}`. -/
structure Event where
  time : ℕ
  value : ℚ
  metadata : List (String × MValue)
  deriving DecidableEq, Repr

/-- The state of a `ComposedEventBuilder`: its timing, its value
generator, its static metadata and the cached candidate `current_next`. -/
structure BuilderState where
  timing : TimingState
  valueGen : ValueGenState
  metadata : List (String × MValue)
  currentNext : Option ℕ
  deriving DecidableEq, Repr

/-- `ComposedEventBuilder.reset()`. -/
def resetBuilder (b : BuilderState) : BuilderState :=
  { b with timing := resetTiming b.timing, valueGen := resetValueGen b.valueGen,
           currentNext := none }

/-- The `while nt is not None and nt <= current: nt = self.timing.next_time(nt, sim.end)`
loop of `ComposedEventBuilder.next_event_time`, with fuel; `none` means
the loop (or a timing call inside it) was still running when the fuel
ran out. -/
def skipLoop (month : ℕ → ℕ) : ℕ → Option ℕ × TimingState → ℕ → ℕ →
    Option (Option ℕ × TimingState)
  | _, (none, s), _, _ => some (none, s)
  | 0, (some t, s), c, _ => if t ≤ c then none else some (some t, s)
  | F + 1, (some t, s), c, e =>
      if t ≤ c then
        match nextTimeF month F s t e with
        | none => none
        | some r => skipLoop month F r c e
      else some (some t, s)

/-- `ComposedEventBuilder.next_event_time(current, sim)`: recomputes the
cached candidate when it is missing or `≤ current`, skipping timing
candidates `≤ current`. -/
def nextEventTime (month : ℕ → ℕ) (F : ℕ) (b : BuilderState) (c e : ℕ) :
    Option (Option ℕ × BuilderState) :=
  match b.currentNext with
  | some t =>
      if t ≤ c then
        match nextTimeF month F b.timing c e with
        | none => none
        | some r =>
            match skipLoop month F r c e with
            | none => none
            | some (nt, s2) => some (nt, { b with timing := s2, currentNext := nt })
      else some (some t, b)
  | none =>
      match nextTimeF month F b.timing c e with
      | none => none
      | some r =>
          match skipLoop month F r c e with
          | none => none
          | some (nt, s2) => some (nt, { b with timing := s2, currentNext := nt })

/-- The mutable pieces of a `Simulation` that `generate_event` touches
besides the builder itself: the shared state mapping. -/
def applyUpdateState (extra : List (String × MValue)) (st : List (String × ℚ)) :
    List (String × ℚ) :=
  match extra.lookup "update_state" with
  | some (.stateMap u) => dictUpdate st u
  | _ => st

/-- `ComposedEventBuilder.generate_event(time, sim)`: fires only when
`time` equals the current candidate; merges metadata (generator values
win), applies any `update_state` patch to the shared state, and
invalidates the cached candidate. -/
def generateEvent (month : ℕ → ℕ) (F : ℕ) (b : BuilderState) (time e : ℕ)
    (st : List (String × ℚ)) :
    Option (Option Event × BuilderState × List (String × ℚ)) :=
  match nextEventTime month F b time e with
  | none => none
  | some (r, b1) =>
      if r = some time then
        let (v, extra, g1) := getValue b1.valueGen time st
        let meta := dictUpdate b1.metadata extra
        let st1 := applyUpdateState extra st
        some (some ⟨time, v, meta⟩,
              { b1 with valueGen := g1, currentNext := none }, st1)
      else some (none, b1, st)

/-! ## The Simulation orchestrator (`sim.py`) -/

/-- The `Simulation` dataclass.  Continuous processes are kept as
state transformers `state ↦ Δdays ↦ state` (the orchestrator treats
them opaquely through `.advance`); the one concrete process,
`AppreciationProcess`, is modelled separately over `ℝ` below. -/
structure Simulation where
  name : String
  start : ℕ
  endTime : ℕ
  params : List (String × PValue)
  builders : List BuilderState
  processes : List (List (String × ℚ) → ℕ → List (String × ℚ))
  events : List Event
  state : List (String × ℚ)
  stateHistory : List (ℕ × List (String × ℚ))

/-- The first phase of one `run()` iteration:
`[b.next_event_time(current, self) for b in self.event_builders]`,
threading each builder's mutated state. -/
def queryAll (month : ℕ → ℕ) (F e c : ℕ) :
    List BuilderState → Option (List (Option ℕ) × List BuilderState)
  | [] => some ([], [])
  | b :: bs =>
      match nextEventTime month F b c e with
      | none => none
      | some (r, b1) =>
          match queryAll month F e c bs with
          | none => none
          | some (rs, bs1) => some (r :: rs, b1 :: bs1)

/-- The second phase of one `run()` iteration: for every builder whose
candidate equals `next_time`, call `generate_event(next_time, self)`,
collecting the events and threading builder states and the shared
state. -/
def genPhase (month : ℕ → ℕ) (F c nt e : ℕ) :
    List BuilderState → List (String × ℚ) →
    Option (List Event × List BuilderState × List (String × ℚ))
  | [], st => some ([], [], st)
  | b :: bs, st =>
      match nextEventTime month F b c e with
      | none => none
      | some (r, b1) =>
          if r = some nt then
            match generateEvent month F b1 nt e st with
            | none => none
            | some (ev?, b2, st1) =>
                match genPhase month F c nt e bs st1 with
                | none => none
                | some (evs, bs1, st2) => some (ev?.toList ++ evs, b2 :: bs1, st2)
          else
            match genPhase month F c nt e bs st with
            | none => none
            | some (evs, bs1, st1) => some (evs, b1 :: bs1, st1)

/-- `if 'cumulative_cash' in self.state: self.state['cumulative_cash'] += total`. -/
def addCumCash (st : List (String × ℚ)) (total : ℚ) : List (String × ℚ) :=
  if (st.lookup "cumulative_cash").isSome then
    st.map (fun p => if p.1 = "cumulative_cash" then (p.1, p.2 + total) else p)
  else st

/-- The `while True:` loop of `Simulation.run()`, with fuel bounding the
number of iterations and every inner query loop; `none` means some loop
was still running when the fuel ran out. -/
def runLoop (month : ℕ → ℕ) : ℕ → Simulation → ℕ → Option Simulation
  | 0, _, _ => none
  | F + 1, sim, current =>
      match queryAll month (F + 1) sim.endTime current sim.builders with
      | none => none
      | some (nts, bs1) =>
          match (nts.filterMap id).filter (· ≤ sim.endTime) with
          | [] => some { sim with builders := bs1 }
          | t0 :: rest =>
              let nt := rest.foldl min t0
              let st1 := sim.processes.foldl (fun s p => p s (nt - current)) sim.state
              match genPhase month (F + 1) current nt sim.endTime bs1 st1 with
              | none => none
              | some (evs, bs2, st2) =>
                  let st3 := addCumCash st2 (evs.map (·.value)).sum
                  runLoop month F
                    { sim with builders := bs2, events := sim.events ++ evs,
                               state := st3,
                               stateHistory := sim.stateHistory ++ [(nt, st3)] }
                    nt

/-- `Simulation.run()`: reset every builder, snapshot the initial state
at `start`, then iterate. -/
def runSim (month : ℕ → ℕ) (F : ℕ) (sim0 : Simulation) : Option Simulation :=
  runLoop month F
    { sim0 with builders := sim0.builders.map resetBuilder,
                stateHistory := sim0.stateHistory ++ [(sim0.start, sim0.state)] }
    sim0.start

/-! ## Helper lemmas about the builder skip loop -/

/-- A candidate strictly beyond `current` exits the skip loop at once. -/
lemma skipLoop_not_le (month : ℕ → ℕ) (G t : ℕ) (s : TimingState) (c e : ℕ)
    (h : ¬ t ≤ c) : skipLoop month G (some t, s) c e = some (some t, s) := by
  cases G <;> simp [skipLoop, h]

/-- `OneTimeTiming` never sets its `fired` flag, so once its instant is
on the table the builder's skip loop re-receives it forever: the loop
exhausts any amount of fuel. -/
lemma skipLoop_oneTime_diverge (month : ℕ → ℕ) (t e : ℕ) (ht : t ≤ e) :
    ∀ G, skipLoop month G (some t, .oneTime t false) t e = none := by
  intro G
  induction G with
  | zero => simp [skipLoop]
  | succ G ih => simp [skipLoop, nextTimeF, ht, ih]

/-- `IntervalTiming`'s catch-up loop uses a strict comparison, so a
cursor equal to `current` never advances: the builder's skip loop
re-receives the same instant forever. -/
lemma skipLoop_interval_diverge (month : ℕ → ℕ) (ivl : ℕ) (st : Option ℕ)
    (t e : ℕ) (ht : t ≤ e) :
    ∀ G, skipLoop month G (some t, .interval ivl st (some t)) t e = none := by
  intro G
  induction G with
  | zero => simp [skipLoop]
  | succ G ih =>
      have hcu : catchUp ivl t t = t := by rw [catchUp]; simp
      simp [skipLoop, nextTimeF, hcu, Nat.not_lt.mpr ht, ih]

/-! ## C1: the orchestration loop does not terminate -/

/-- The failing input for C1: a simulation over `[0, 20]` with one
`ComposedEventBuilder(OneTimeTiming(10), FixedValue(5))` (in dates:
start 2026-01-01, end 2026-01-21, a one-off event on 2026-01-11). -/
def oneTimeSim : Simulation :=
  { name := "sim", start := 0, endTime := 20, params := [],
    builders := [{ timing := .oneTime 10 false, valueGen := .fixed 5,
                   metadata := [], currentNext := none }],
    processes := [], events := [], state := [], stateHistory := [] }

/-- C1.  The claim says `Simulation.run()` always terminates; in fact it
never does on `oneTimeSim`: after the one-off event fires at instant 10,
`generate_event` re-queries `next_event_time(10, sim)`, whose
skip-past-current loop spins forever because `OneTimeTiming.next_time`
never sets `fired` and keeps returning 10.  No amount of fuel makes the
run finish. -/
theorem run_oneTimeSim_never_terminates (month : ℕ → ℕ) (F : ℕ) :
    runSim month F oneTimeSim = none := by
  cases F with
  | zero => rfl
  | succ F =>
      simp [runSim, oneTimeSim, runLoop, queryAll, nextEventTime, resetBuilder,
            resetTiming, resetValueGen, nextTimeF, skipLoop_not_le, genPhase,
            generateEvent, skipLoop_oneTime_diverge]

/-! ## C2: `OneTimeTiming` fires more than once -/

/-- C2.  The claim says that once `t0` has been returned every later
`next_time` call returns `none`.  In fact `next_time` never sets the
`fired` flag, so two identical calls both return the instant: with
`t0 = 10`, the calls `next_time(0, 20); next_time(0, 20)` return 10
twice. -/
theorem oneTime_fires_twice :
    (timingTrace (fun _ => 0) 1 (.oneTime 10 false) [(0, 20), (0, 20)]).1
      = [((0, 20), some 10), ((0, 20), some 10)] := by decide

/-! ## C4: the Interval scenario -/

/-- C4.  First part of the scenario as claimed: after `reset()`, an
interval timing with `interval_days = 30` and no start, queried at
`current = 0` (2026-01-01) with `end = 59` (2026-03-01), returns 30
(2026-01-31).  Second part refuted: after that candidate is emitted the
next query (at `current = 30`) returns 30 again — not `none` — because
emission never advances the cursor and the catch-up loop is strict; the
builder-level skip loop then spins forever on it. -/
theorem interval_scenario_repeats :
    nextTimeF (fun _ => 0) 1 (.interval 30 none none) 0 59
        = some (some 30, .interval 30 none (some 30))
      ∧ nextTimeF (fun _ => 0) 1 (.interval 30 none (some 30)) 30 59
        = some (some 30, .interval 30 none (some 30))
      ∧ ∀ G, skipLoop (fun _ => 0) G (some 30, .interval 30 none (some 30)) 30 59
        = none := by
  refine ⟨by simp [nextTimeF, catchUp], by simp [nextTimeF, catchUp], ?_⟩
  exact skipLoop_interval_diverge (fun _ => 0) 30 none 30 59 (by norm_num)

/-! ## C3: monotonicity of returned instants -/

/-- C3, counterexample to the claim as stated: an interval timing
(interval 30, no start, freshly reset) queried twice with the same
arguments returns instant 30 twice, so a returned instant is *not*
strictly greater than every previously returned one. -/
theorem interval_returns_equal_instants :
    (timingTrace (fun _ => 0) 3 (.interval 30 none none)
        [(0, 100), (0, 100)]).1.filterMap (·.2) = [30, 30] := by
  simp [timingTrace, nextTimeF, catchUp]

/-! ## C3: what does hold — returned instants are in range and non-decreasing -/

/-- Well-formedness of a timing state, as construction plus `reset()`
establish it: an interval is positive (the spec calls a zero interval
invalid, and the catch-up loop diverges on it), and a random timing's
drawn list is sorted ascending (`reset()` sorts it). -/
def TimingWF : TimingState → Prop
  | .oneTime _ _ => True
  | .interval ivl _ _ => 0 < ivl
  | .random ts _ => ts.Sorted (· ≤ ·)
  | .seasonal _ inner => TimingWF inner

/-- A lower bound on every instant a timing state can still return:
its cursor position (`⊤` for a random timing read past its list). -/
def timingLB : TimingState → WithTop ℕ
  | .oneTime t _ => (t : WithTop ℕ)
  | .interval _ _ none => 0
  | .interval _ _ (some k) => (k : WithTop ℕ)
  | .random ts idx => if idx < ts.length then (ts.getD idx 0 : WithTop ℕ) else ⊤
  | .seasonal _ inner => timingLB inner

/-- A timing whose schedule is spent: a fired one-time timing, a random
timing read past its list, a seasonal wrapper over a spent inner.  (An
interval timing's schedule is unbounded and never spends.) -/
def timingSpent : TimingState → Prop
  | .oneTime _ f => f = true
  | .interval _ _ _ => False
  | .random ts idx => ts.length ≤ idx
  | .seasonal _ inner => timingSpent inner

/-- Seasonal-wrapper nesting depth: the fuel one `next_time` call needs
when every inner call returns immediately. -/
def seasonalDepth : TimingState → ℕ
  | .seasonal _ inner => seasonalDepth inner + 1
  | _ => 0

/-- The catch-up loop never stops below `current` (for a positive interval). -/
lemma le_catchUp (ivl cursor c : ℕ) (h : 0 < ivl) : c ≤ catchUp ivl cursor c := by
  rw [catchUp]
  by_cases hlt : cursor < c
  · simpa [h, hlt] using le_catchUp ivl (cursor + ivl) c h
  · simp [hlt]
    omega
termination_by c - cursor
decreasing_by omega

/-- The catch-up loop only moves the cursor forward. -/
lemma self_le_catchUp (ivl cursor c : ℕ) : cursor ≤ catchUp ivl cursor c := by
  rw [catchUp]
  by_cases hc : 0 < ivl ∧ cursor < c
  · simp only [hc, and_self, dite_true]
    have := self_le_catchUp ivl (cursor + ivl) c
    omega
  · simp [hc]
termination_by c - cursor
decreasing_by omega

/-- The random read cursor only moves forward. -/
lemma le_skipIndex (ts : List ℕ) (idx c : ℕ) : idx ≤ skipIndex ts idx c := by
  by_cases h : idx < ts.length ∧ ts.getD idx 0 < c
  · rw [skipIndex, dif_pos h]
    have := le_skipIndex ts (idx + 1) c
    omega
  · rw [skipIndex, dif_neg h]
termination_by ts.length - idx
decreasing_by omega

/-- After the random skip loop, any in-range instant under the cursor
is `≥ current`. -/
lemma skipIndex_post (ts : List ℕ) (idx c : ℕ) :
    skipIndex ts idx c < ts.length → c ≤ ts.getD (skipIndex ts idx c) 0 := by
  by_cases h : idx < ts.length ∧ ts.getD idx 0 < c
  · rw [skipIndex, dif_pos h]
    exact skipIndex_post ts (idx + 1) c
  · rw [skipIndex, dif_neg h]
    intro hl
    by_contra hc
    exact h ⟨hl, Nat.lt_of_not_le hc⟩
termination_by ts.length - idx
decreasing_by omega

/-- `getD` is monotone along a sorted list. -/
lemma sorted_getD_mono (ts : List ℕ) (hs : ts.Sorted (· ≤ ·)) (i j : ℕ)
    (hij : i ≤ j) (hj : j < ts.length) : ts.getD i 0 ≤ ts.getD j 0 := by
  have hi : i < ts.length := lt_of_le_of_lt hij hj
  rcases eq_or_lt_of_le hij with rfl | hlt
  · exact le_refl _
  · have h := List.pairwise_iff_get.mp hs ⟨i, hi⟩ ⟨j, hj⟩ hlt
    rw [List.getD_eq_getElem?_getD, List.getD_eq_getElem?_getD,
        List.getElem?_eq_getElem hi, List.getElem?_eq_getElem hj]
    simpa [List.get_eq_getElem] using h

/-- The one-step contract that *does* hold for `next_time`: the state
stays well-formed, the cursor bound never decreases, and a returned
instant lies within `[current, end]` and between the cursor bounds
before and after the call (hence returned instants never decrease
across a call sequence, though they may repeat). -/
def NextSpec (s : TimingState) (c e : ℕ) (r : Option ℕ) (s1 : TimingState) : Prop :=
  TimingWF s1 ∧ timingLB s ≤ timingLB s1 ∧
    ∀ t, r = some t →
      c ≤ t ∧ t ≤ e ∧ timingLB s ≤ (t : WithTop ℕ) ∧ (t : WithTop ℕ) ≤ timingLB s1

lemma nextSpec_oneTime (month : ℕ → ℕ) (F t : ℕ) (f : Bool) (c e : ℕ)
    {r : Option ℕ} {s1 : TimingState}
    (h : nextTimeF month F (.oneTime t f) c e = some (r, s1)) :
    NextSpec (.oneTime t f) c e r s1 := by
  rw [nextTimeF_oneTime] at h
  split at h
  case isTrue hc =>
    simp only [Option.some.injEq, Prod.mk.injEq] at h
    obtain ⟨h1, h2⟩ := h
    subst h1; subst h2
    refine ⟨trivial, le_refl _, fun u hu => ?_⟩
    obtain rfl : t = u := by simpa using hu
    exact ⟨hc.2.1, hc.2.2, le_refl _, le_refl _⟩
  case isFalse hc =>
    simp only [Option.some.injEq, Prod.mk.injEq] at h
    obtain ⟨h1, h2⟩ := h
    subst h1; subst h2
    exact ⟨trivial, le_refl _, fun u hu => by cases hu⟩

lemma nextSpec_interval (month : ℕ → ℕ) (F ivl : ℕ) (st cur : Option ℕ)
    (c e : ℕ) (hwf : 0 < ivl) {r : Option ℕ} {s1 : TimingState}
    (h : nextTimeF month F (.interval ivl st cur) c e = some (r, s1)) :
    NextSpec (.interval ivl st cur) c e r s1 := by
  rw [nextTimeF_interval] at h
  simp only [Option.some.injEq] at h
  have hLB : ∀ k, timingLB (.interval ivl st cur)
      ≤ (catchUp ivl (cur.getD k) c : WithTop ℕ) := by
    intro k
    cases cur with
    | none => exact zero_le _
    | some x =>
        simp only [timingLB, Option.getD_some, Nat.cast_le]
        exact_mod_cast self_le_catchUp ivl x c
  split at h
  case isTrue he =>
    injection h with h1 h2
    subst h1; subst h2
    refine ⟨hwf, ?_, fun u hu => by cases hu⟩
    simpa [timingLB] using hLB _
  case isFalse he =>
    injection h with h1 h2
    subst h1; subst h2
    refine ⟨hwf, by simpa [timingLB] using hLB _, fun u hu => ?_⟩
    obtain rfl : catchUp ivl (cur.getD _) c = u := by simpa using hu
    refine ⟨le_catchUp ivl _ c hwf, le_of_not_lt he, by simpa using hLB _, ?_⟩
    simp [timingLB]

lemma nextSpec_random (month : ℕ → ℕ) (F : ℕ) (ts : List ℕ) (idx c e : ℕ)
    (hs : ts.Sorted (· ≤ ·)) {r : Option ℕ} {s1 : TimingState}
    (h : nextTimeF month F (.random ts idx) c e = some (r, s1)) :
    NextSpec (.random ts idx) c e r s1 := by
  rw [nextTimeF_random] at h
  simp only [Option.some.injEq] at h
  have hle : idx ≤ skipIndex ts idx c := le_skipIndex ts idx c
  have hLB : timingLB (.random ts idx) ≤ timingLB (.random ts (skipIndex ts idx c)) := by
    by_cases h1 : skipIndex ts idx c < ts.length
    · have h0 : idx < ts.length := lt_of_le_of_lt hle h1
      simp only [timingLB, if_pos h1, if_pos h0, Nat.cast_le]
      exact sorted_getD_mono ts hs idx _ hle h1
    · simp only [timingLB, if_neg h1]
      exact le_top
  split at h
  case isTrue hc =>
    injection h with h1 h2
    subst h1; subst h2
    refine ⟨hs, hLB, fun u hu => ?_⟩
    obtain rfl : ts.getD (skipIndex ts idx c) 0 = u := by simpa using hu
    refine ⟨skipIndex_post ts idx c hc.1, hc.2, ?_, ?_⟩
    · simpa [timingLB, hc.1] using hLB
    · simp [timingLB, hc.1]
  case isFalse hc =>
    injection h with h1 h2
    subst h1; subst h2
    exact ⟨hs, hLB, fun u hu => by cases hu⟩
/-- The one-step contract, for every variant and any fuel, by induction
on the fuel (the seasonal skip loop recurses at smaller fuel). -/
lemma nextTimeF_spec (month : ℕ → ℕ) :
    ∀ (F : ℕ) (s : TimingState), TimingWF s → ∀ {c e : ℕ} {r : Option ℕ}
      {s1 : TimingState}, nextTimeF month F s c e = some (r, s1) →
      NextSpec s c e r s1 := by
  intro F
  induction F with
  | zero =>
      intro s hwf c e r s1 h
      cases s with
      | oneTime t f => exact nextSpec_oneTime month 0 t f c e h
      | interval ivl st cur => exact nextSpec_interval month 0 ivl st cur c e hwf h
      | random ts idx => exact nextSpec_random month 0 ts idx c e hwf h
      | seasonal ms inner => cases h
  | succ F ih =>
      intro s hwf c e r s1 h
      cases s with
      | oneTime t f => exact nextSpec_oneTime month (F + 1) t f c e h
      | interval ivl st cur => exact nextSpec_interval month (F + 1) ivl st cur c e hwf h
      | random ts idx => exact nextSpec_random month (F + 1) ts idx c e hwf h
      | seasonal ms inner =>
          rcases hinner : nextTimeF month F inner c e with _ | ⟨rt, s2⟩
          · rw [nextTimeF_seasonal_fuel month F ms inner c e hinner] at h
            cases h
          · have hspec := ih inner hwf hinner
            cases rt with
            | none =>
                rw [nextTimeF_seasonal_none month F ms inner s2 c e hinner] at h
                simp only [Option.some.injEq, Prod.mk.injEq] at h
                obtain ⟨h1, h2⟩ := h
                subst h1; subst h2
                exact ⟨hspec.1, hspec.2.1, fun u hu => by cases hu⟩
            | some t =>
                rw [nextTimeF_seasonal_some month F ms inner s2 c e t hinner] at h
                by_cases hm : month t ∈ ms
                · rw [if_pos hm] at h
                  simp only [Option.some.injEq, Prod.mk.injEq] at h
                  obtain ⟨h1, h2⟩ := h
                  subst h1; subst h2
                  obtain ⟨hc, he, hlb, hub⟩ := hspec.2.2 t rfl
                  exact ⟨hspec.1, hspec.2.1, fun u hu => by
                    obtain rfl : t = u := by simpa using hu
                    exact ⟨hc, he, hlb, hub⟩⟩
                · rw [if_neg hm] at h
                  have hwf2 : TimingWF (.seasonal ms s2) := hspec.1
                  have hrec := ih (.seasonal ms s2) hwf2 h
                  obtain ⟨hc, he, hlb, hub⟩ := hspec.2.2 t rfl
                  refine ⟨hrec.1, le_trans hspec.2.1 hrec.2.1, fun u hu => ?_⟩
                  obtain ⟨hcu, heu, hlbu, hubu⟩ := hrec.2.2 u hu
                  exact ⟨le_trans hc hcu, heu,
                    le_trans hlb (le_trans hub hlbu), hubu⟩

/-- A spent timing (per `timingSpent`) answers `none` and stays spent,
given enough fuel for its seasonal nesting (the real call terminates
immediately; only the model needs the fuel). -/
lemma nextTimeF_spent (month : ℕ → ℕ) :
    ∀ (s : TimingState) (F c e : ℕ), timingSpent s → seasonalDepth s ≤ F →
      nextTimeF month F s c e = some (none, s) := by
  intro s
  induction s with
  | oneTime t f =>
      intro F c e hsp _
      have hf : f = true := hsp
      subst hf
      simp [nextTimeF_oneTime]
  | interval ivl st cur => intro F c e hsp; cases hsp
  | random ts idx =>
      intro F c e hsp _
      have hsk : skipIndex ts idx c = idx := by
        rw [skipIndex, dif_neg]
        intro hcon
        exact absurd hcon.1 (Nat.not_lt.mpr hsp)
      have hidx : ¬ idx < ts.length := Nat.not_lt.mpr hsp
      simp [nextTimeF_random, hsk, hidx]
  | seasonal ms inner ih =>
      intro F c e hsp hd
      have hd1 : seasonalDepth inner + 1 ≤ F := hd
      cases F with
      | zero => omega
      | succ F =>
          rw [nextTimeF_seasonal_none month F ms inner inner c e
            (ih F c e hsp (by omega))]

/-- `b` bounds the head of the list and each element bounds its tail. -/
def lowerChain : WithTop ℕ → List ℕ → Prop
  | _, [] => True
  | b, t :: ts => b ≤ (t : WithTop ℕ) ∧ lowerChain (t : WithTop ℕ) ts

lemma lowerChain_mono {b b' : WithTop ℕ} {l : List ℕ} (hb : b ≤ b')
    (h : lowerChain b' l) : lowerChain b l := by
  cases l with
  | nil => trivial
  | cons t ts => exact ⟨le_trans hb h.1, h.2⟩

lemma lowerChain_chain' {l : List ℕ} : ∀ {b : WithTop ℕ},
    lowerChain b l → List.Chain' (· ≤ ·) l := by
  induction l with
  | nil => intro b _; simp
  | cons t ts ih =>
      intro b h
      cases ts with
      | nil => simp
      | cons u us =>
          rw [List.chain'_cons]
          exact ⟨by exact_mod_cast h.2.1, ih h.2⟩

/-- Along any call sequence from a well-formed state, every returned
instant is within that call's `[current, end]`, and the returned
instants form a chain bounded below by the starting cursor bound. -/
lemma timingTrace_spec (month : ℕ → ℕ) (F : ℕ) :
    ∀ (calls : List (ℕ × ℕ)) (s : TimingState), TimingWF s →
      (∀ p ∈ (timingTrace month F s calls).1, ∀ t, p.2 = some t →
          p.1.1 ≤ t ∧ t ≤ p.1.2)
      ∧ lowerChain (timingLB s) ((timingTrace month F s calls).1.filterMap (·.2)) := by
  intro calls
  induction calls with
  | nil =>
      intro s hwf
      exact ⟨by simp [timingTrace], trivial⟩
  | cons ce rest ih =>
      obtain ⟨c, e⟩ := ce
      intro s hwf
      rcases hstep : nextTimeF month F s c e with _ | ⟨r, s1⟩
      · exact ⟨by simp [timingTrace, hstep], by simp [timingTrace, hstep]; trivial⟩
      · have hspec := nextTimeF_spec month F s hwf hstep
        have hrest := ih s1 hspec.1
        constructor
        · intro p hp t hpt
          simp only [timingTrace, hstep, List.mem_cons] at hp
          rcases hp with rfl | hp
          · obtain ⟨h1, h2, _, _⟩ := hspec.2.2 t hpt
            exact ⟨h1, h2⟩
          · exact hrest.1 p hp t hpt
        · simp only [timingTrace, hstep]
          cases r with
          | none =>
              simpa using lowerChain_mono hspec.2.1 hrest.2
          | some t =>
              have h4 := hspec.2.2 t rfl
              simp only [List.filterMap_cons]
              exact ⟨h4.2.2.1, lowerChain_mono h4.2.2.2 hrest.2⟩

/-- C3, amended.  For every Timing variant from a well-formed state
(positive interval; random list sorted, as `reset()` leaves it): each
returned instant lies within the call's `[current, end]`; the sequence
of returned instants is non-decreasing — not strictly increasing: an
unconsumed candidate is returned again on re-query, since the cursors
advance only past instants strictly before `current`; and a spent
timing (fired one-time, random list read out; an interval never spends)
returns `none` for ever after, with unchanged state. -/
theorem timing_returns_monotone_in_range (month : ℕ → ℕ) (F : ℕ)
    (s : TimingState) (calls : List (ℕ × ℕ)) (hwf : TimingWF s) :
    (∀ p ∈ (timingTrace month F s calls).1, ∀ t, p.2 = some t →
        p.1.1 ≤ t ∧ t ≤ p.1.2)
    ∧ List.Chain' (· ≤ ·) ((timingTrace month F s calls).1.filterMap (·.2))
    ∧ (∀ s1 G c e, timingSpent s1 → seasonalDepth s1 ≤ G →
        nextTimeF month G s1 c e = some (none, s1)) := by
  have h := timingTrace_spec month F calls s hwf
  exact ⟨h.1, lowerChain_chain' h.2,
    fun s1 G c e hsp hd => nextTimeF_spent month s1 G c e hsp hd⟩

/-- Witness for C3's amended theorem: an interval timing of 30 days
queried at `(0, 100)` then `(45, 100)` returns 30 then 60 — in range,
non-decreasing. -/
theorem timing_returns_monotone_in_range_witness :
    TimingWF (.interval 30 none none)
    ∧ ((∀ p ∈ (timingTrace (fun _ => 0) 3 (.interval 30 none none)
            [(0, 100), (45, 100)]).1, ∀ t, p.2 = some t →
          p.1.1 ≤ t ∧ t ≤ p.1.2)
      ∧ List.Chain' (· ≤ ·) ((timingTrace (fun _ => 0) 3 (.interval 30 none none)
            [(0, 100), (45, 100)]).1.filterMap (·.2))
      ∧ (∀ s1 G c e, timingSpent s1 → seasonalDepth s1 ≤ G →
          nextTimeF (fun _ => 0) G s1 c e = some (none, s1))) :=
  ⟨by norm_num [TimingWF],
   timing_returns_monotone_in_range (fun _ => 0) 3 (.interval 30 none none)
     [(0, 100), (45, 100)] (by norm_num [TimingWF])⟩
/-! ## C5 / C6: the variable-rate loan -/

/-- The clamped principal payment of one *active* amortization step of
`VariableRateLoanValue.get_value` (the guard `month ≥ term ∨ balance ≤ 0`
is false), factored out of `loanGetValue` for the proofs. -/
def loanPrincipalPay (L : LoanState) (st : List (String × ℚ)) : ℚ :=
  let currentRate := (st.lookup L.rateKey).getD L.initialRate
  let monthlyRate := currentRate / 12
  let remainingMonths := L.termMonths - L.month
  let payment :=
    if monthlyRate = 0 then L.balance / remainingMonths
    else
      let r := (1 + monthlyRate) ^ remainingMonths
      L.balance * monthlyRate * r / (r - 1)
  let principalPay0 := payment - L.balance * monthlyRate
  if L.balance < principalPay0 then L.balance else principalPay0

/-- A retired or exhausted loan is an idempotent no-op: value 0, empty
metadata, state untouched. -/
lemma loanGetValue_noop (L : LoanState) (t : ℕ) (st : List (String × ℚ))
    (h : L.termMonths ≤ L.month ∨ L.balance ≤ 0) :
    loanGetValue L t st = (0, [], L) := by
  unfold loanGetValue
  rw [if_pos h]

/-- An active step decrements the balance by the clamped principal
payment. -/
lemma loanGetValue_active_balance (L : LoanState) (t : ℕ)
    (st : List (String × ℚ)) (hg : ¬ (L.termMonths ≤ L.month ∨ L.balance ≤ 0)) :
    (loanGetValue L t st).2.2.balance = L.balance - loanPrincipalPay L st := by
  unfold loanGetValue loanPrincipalPay
  rw [if_neg hg]

/-- `get_value` never changes the loan's configuration fields. -/
lemma loanGetValue_config (L : LoanState) (t : ℕ) (st : List (String × ℚ)) :
    (loanGetValue L t st).2.2.rateKey = L.rateKey
    ∧ (loanGetValue L t st).2.2.initialRate = L.initialRate := by
  unfold loanGetValue
  split
  · exact ⟨rfl, rfl⟩
  · exact ⟨rfl, rfl⟩

/-- Sign analysis of the clamped principal payment: as long as the rate
read from state is ≥ −12 (i.e. the monthly rate is ≥ −1), it lies
between 0 and the remaining balance. -/
lemma loanPrincipalPay_bounds (L : LoanState) (st : List (String × ℚ))
    (hb : 0 ≤ L.balance)
    (hr : -12 ≤ (st.lookup L.rateKey).getD L.initialRate)
    (hactive : L.month < L.termMonths) :
    0 ≤ loanPrincipalPay L st ∧ loanPrincipalPay L st ≤ L.balance := by
  unfold loanPrincipalPay
  dsimp only
  set cr := (st.lookup L.rateKey).getD L.initialRate with hcr
  set mr := cr / 12 with hmr
  set rm := L.termMonths - L.month with hrmdef
  have hrm0 : rm ≠ 0 := by omega
  have hrmQ : (0 : ℚ) < (rm : ℚ) := by
    exact_mod_cast Nat.pos_of_ne_zero hrm0
  have hmr1 : (-1 : ℚ) ≤ mr := by
    have h12 : (-12 : ℚ) / 12 ≤ cr / 12 :=
      (div_le_div_iff_of_pos_right (by norm_num : (0 : ℚ) < 12)).mpr hr
    rw [hmr]
    linarith [h12]
  have hpp0 : 0 ≤ (if mr = 0 then L.balance / (rm : ℚ)
      else L.balance * mr * ((1 + mr) ^ rm) / ((1 + mr) ^ rm - 1))
      - L.balance * mr := by
    by_cases h0 : mr = 0
    · rw [if_pos h0, h0]
      have : 0 ≤ L.balance / (rm : ℚ) := div_nonneg hb (le_of_lt hrmQ)
      linarith
    · rw [if_neg h0]
      rcases lt_trichotomy mr 0 with hneg | hzero | hpos
      · rcases eq_or_lt_of_le hmr1 with heq | hgt
        · have h1pm : 1 + mr = 0 := by linarith [heq]
          have hmrv : mr = -1 := heq.symm
          rw [h1pm, zero_pow hrm0, hmrv]
          have : L.balance * -1 * 0 / (0 - 1) - L.balance * -1 = L.balance := by
            ring
          linarith [this]
        · have h1p : (0 : ℚ) < 1 + mr := by linarith
          have h1l : 1 + mr < 1 := by linarith
          have hrlt : (1 + mr) ^ rm < 1 := pow_lt_one₀ (le_of_lt h1p) h1l hrm0
          have hne : (1 + mr) ^ rm - 1 ≠ 0 := sub_ne_zero.mpr (ne_of_lt hrlt)
          have hid : L.balance * mr * ((1 + mr) ^ rm) / ((1 + mr) ^ rm - 1)
              - L.balance * mr = L.balance * mr / ((1 + mr) ^ rm - 1) := by
            field_simp
            ring
          rw [hid]
          apply div_nonneg_of_nonpos
          · nlinarith [hb, hneg]
          · linarith [hrlt]
      · exact absurd hzero h0
      · have hgt1 : 1 < (1 + mr) ^ rm := one_lt_pow₀ (by linarith) hrm0
        have hne : (1 + mr) ^ rm - 1 ≠ 0 := sub_ne_zero.mpr (ne_of_gt hgt1)
        have hid : L.balance * mr * ((1 + mr) ^ rm) / ((1 + mr) ^ rm - 1)
            - L.balance * mr = L.balance * mr / ((1 + mr) ^ rm - 1) := by
          field_simp
          ring
        rw [hid]
        exact div_nonneg (mul_nonneg hb (le_of_lt hpos)) (by linarith)
  set P0 := (if mr = 0 then L.balance / (rm : ℚ)
      else L.balance * mr * ((1 + mr) ^ rm) / ((1 + mr) ^ rm - 1))
      - L.balance * mr with hP0
  constructor
  · split_ifs with hcl
    · exact hb
    · exact hpp0
  · split_ifs with hcl
    · exact le_refl _
    · exact le_of_not_lt hcl

/-- One `get_value` call keeps the balance in `[0, old balance]`, for
any rate read from state that is ≥ −12. -/
lemma loanGetValue_balance_step (L : LoanState) (t : ℕ)
    (st : List (String × ℚ)) (hb : 0 ≤ L.balance)
    (hr : -12 ≤ (st.lookup L.rateKey).getD L.initialRate) :
    0 ≤ (loanGetValue L t st).2.2.balance
    ∧ (loanGetValue L t st).2.2.balance ≤ L.balance := by
  by_cases hg : L.termMonths ≤ L.month ∨ L.balance ≤ 0
  · rw [loanGetValue_noop L t st hg]
    exact ⟨hb, le_refl _⟩
  · have hbal := loanGetValue_active_balance L t st hg
    have hact : L.month < L.termMonths := by
      push_neg at hg
      omega
    have hbd := loanPrincipalPay_bounds L st hb hr hact
    rw [hbal]
    constructor
    · linarith [hbd.2]
    · linarith [hbd.1]

/-- The successive balances along a sequence of `get_value` calls. -/
def loanBalances (L : LoanState) : List (ℕ × List (String × ℚ)) → List ℚ
  | [] => []
  | (t, st) :: rest =>
      (loanGetValue L t st).2.2.balance
        :: loanBalances (loanGetValue L t st).2.2 rest

lemma loanBalances_spec (calls : List (ℕ × List (String × ℚ))) :
    ∀ L : LoanState, 0 ≤ L.balance →
      (∀ p ∈ calls, -12 ≤ ((p.2.lookup L.rateKey).getD L.initialRate)) →
      List.Chain' (· ≥ ·) (L.balance :: loanBalances L calls)
      ∧ ∀ b ∈ loanBalances L calls, 0 ≤ b := by
  induction calls with
  | nil =>
      intro L hb _
      simp [loanBalances]
  | cons p rest ih =>
      obtain ⟨t, st⟩ := p
      intro L hb hr
      have hstep := loanGetValue_balance_step L t st hb
        (hr (t, st) (List.mem_cons_self _ _))
      have hcfg := loanGetValue_config L t st
      have hrrest : ∀ q ∈ rest,
          -12 ≤ ((q.2.lookup (loanGetValue L t st).2.2.rateKey).getD
            (loanGetValue L t st).2.2.initialRate) := by
        intro q hq
        rw [hcfg.1, hcfg.2]
        exact hr q (List.mem_cons_of_mem _ hq)
      have hrec := ih (loanGetValue L t st).2.2 hstep.1 hrrest
      refine ⟨?_, ?_⟩
      · simp only [loanBalances]
        exact List.chain'_cons.mpr ⟨hstep.2, hrec.1⟩
      · intro b hbmem
        simp only [loanBalances, List.mem_cons] at hbmem
        rcases hbmem with rfl | hbmem
        · exact hstep.1
        · exact hrec.2 b hbmem

/-- C5, amended.  Provided the loan's balance starts non-negative (it
starts at the principal) and every rate read from the shared state is
≥ −12 — equivalently, every monthly rate is ≥ −1, which covers every
non-negative rate — the remaining balance is non-increasing along any
sequence of `get_value` calls and never becomes negative; and,
unconditionally, once the elapsed term count reaches `term_months` or
the balance reaches 0, every further call returns magnitude 0 with
empty metadata and changes no internal state.  (For a monthly rate
below −1 the principal payment can be negative and the balance grows:
see the counterexample.) -/
theorem loan_balance_nonincreasing_nonnegative (L : LoanState)
    (calls : List (ℕ × List (String × ℚ))) (hb : 0 ≤ L.balance)
    (hr : ∀ p ∈ calls, -12 ≤ ((p.2.lookup L.rateKey).getD L.initialRate)) :
    List.Chain' (· ≥ ·) (L.balance :: loanBalances L calls)
    ∧ (∀ b ∈ loanBalances L calls, 0 ≤ b)
    ∧ (∀ (L1 : LoanState) (t : ℕ) (st : List (String × ℚ)),
        L1.termMonths ≤ L1.month ∨ L1.balance ≤ 0 →
        loanGetValue L1 t st = (0, [], L1)) := by
  have h := loanBalances_spec calls L hb hr
  exact ⟨h.1, h.2, fun L1 t st hg => loanGetValue_noop L1 t st hg⟩

/-- The concrete loan of the C6 scenario:
`principal=100000, initial_rate=0.06, term_months=12, rate_key='r'`,
as `reset()` leaves it. -/
def c6Loan : LoanState :=
  { principal := 100000, initialRate := 6 / 100, termMonths := 12,
    rateKey := "r", balance := 100000, month := 0, lastTime := none }

/-- Witness for C5's amended theorem at the C6 loan and two calls with
an empty shared state. -/
theorem loan_balance_nonincreasing_nonnegative_witness :
    (0 ≤ c6Loan.balance)
    ∧ (∀ p ∈ ([(0, []), (1, [])] : List (ℕ × List (String × ℚ))),
        -12 ≤ ((p.2.lookup c6Loan.rateKey).getD c6Loan.initialRate))
    ∧ (List.Chain' (· ≥ ·)
        (c6Loan.balance :: loanBalances c6Loan [(0, []), (1, [])])
      ∧ (∀ b ∈ loanBalances c6Loan [(0, []), (1, [])], 0 ≤ b)
      ∧ (∀ (L1 : LoanState) (t : ℕ) (st : List (String × ℚ)),
          L1.termMonths ≤ L1.month ∨ L1.balance ≤ 0 →
          loanGetValue L1 t st = (0, [], L1))) :=
  ⟨by norm_num [c6Loan],
   by
    intro p hp
    fin_cases hp <;> norm_num [c6Loan, List.lookup],
   loan_balance_nonincreasing_nonnegative c6Loan [(0, []), (1, [])]
     (by norm_num [c6Loan])
     (by
      intro p hp
      fin_cases hp <;> norm_num [c6Loan, List.lookup])⟩

/-- C5, counterexample to the claim as stated: with rate −36 in the
shared state (monthly rate −3), an active step *increases* the balance
from 100 to 200 — the computed principal payment is −100 and the clamp
only caps it from above. -/
theorem loan_balance_increases_on_negative_rate :
    (loanGetValue ⟨100, 0, 2, "r", 100, 0, none⟩ 0 [("r", -36)]).2.2.balance = 200
    ∧ (100 : ℚ) < 200 := by
  constructor
  · norm_num [loanGetValue, List.lookup]
  · norm_num

/-- C6.  The scenario: 12 `get_value` calls against `c6Loan` with the
rate key absent from the shared state on every call (so every call
falls back to the initial rate 0.06).  In exact rational arithmetic the
final balance is exactly 0 and the `principal` metadata fields sum to
exactly 100000. -/
theorem loan_12_months_exact_payoff :
    (loanTrace c6Loan (List.replicate 12 (0, []))).2.balance = 0
    ∧ ((loanTrace c6Loan (List.replicate 12 (0, []))).1.map
        (fun r => (fun meta => match meta.lookup "principal" with
          | some (.num q) => q
          | _ => 0) r.2)).sum = 100000 := by
  have h1 : ("principal" == "interest") = false := by decide
  norm_num [loanTrace, loanGetValue, c6Loan, List.lookup, List.replicate, h1]
/-! ## C8 / C9: the ensemble builder (`sim_builder.py`) -/

/-- Modelled from the spec: the ambient random source (`np.random`),
whose concrete generator is outside the repository.  Its state is
abstract (a natural number); `np.random.seed(n)` puts it into a state
depending only on `n`; a distribution's `sample()` is an arbitrary
state-threading function. -/
abbrev RNG : Type := ℕ

/-- `np.random.seed(n)`: the state after seeding depends only on `n`. -/
def seedRNG (n : ℕ) : RNG := n

/-- `{k: v.sample() for k, v in param_distributions.items()}`: one
sample per distribution, threading the random source in insertion
order. -/
def sampleAll (dists : List (String × (RNG → PValue × RNG))) (g : RNG) :
    List (String × PValue) × RNG :=
  match dists with
  | [] => ([], g)
  | (k, d) :: rest =>
      ((k, (d g).1) :: (sampleAll rest (d g).2).1, (sampleAll rest (d g).2).2)

/-- `_build_one(factory, param_distributions, base_seed, i)` executed in
a worker whose ambient random state is `g`: seed from `base_seed + i`
when a seed was supplied, sample the parameters, build the simulation
via the factory, name it `Sim_{i}`, and run it (with fuel `F`). -/
def buildOne (month : ℕ → ℕ) (F : ℕ)
    (factory : List (String × PValue) → Simulation)
    (dists : List (String × (RNG → PValue × RNG)))
    (baseSeed : Option ℕ) (g : RNG) (i : ℕ) : Option Simulation :=
  let g0 := match baseSeed with
    | some s => seedRNG (s + i)
    | none => g
  let params := (sampleAll dists g0).1
  let sim := factory params
  runSim month F { sim with name := "Sim_" ++ toString i }

/-- `SimulationBuilder.build_simulations(num, seed)`:
`list(executor.map(build_func, range(num)))` — one trial per index, the
results gathered in trial-index order. -/
def buildSimulations (month : ℕ → ℕ) (F : ℕ)
    (factory : List (String × PValue) → Simulation)
    (dists : List (String × (RNG → PValue × RNG)))
    (num : ℕ) (seed : Option ℕ) (g : RNG) : List (Option Simulation) :=
  (List.range num).map (buildOne month F factory dists seed g)

/-- C8.  With a supplied seed, two runs of `build_simulations` agree no
matter what random state (`g1`, `g2`) each worker started with — trial
`i` re-seeds its source from `seed + i`, so the sampled parameters and
the whole trial result depend only on the seed; results come back in
trial-index order, trial `i` being exactly the run of the factory's
simulation under the parameters sampled from the source seeded with
`seed + i`. -/
theorem build_simulations_seeded_deterministic (month : ℕ → ℕ) (F : ℕ)
    (factory : List (String × PValue) → Simulation)
    (dists : List (String × (RNG → PValue × RNG)))
    (num s : ℕ) (g1 g2 : RNG) :
    buildSimulations month F factory dists num (some s) g1
      = buildSimulations month F factory dists num (some s) g2
    ∧ (buildSimulations month F factory dists num (some s) g1).length = num
    ∧ ∀ i : ℕ, i < num →
        (buildSimulations month F factory dists num (some s) g1).getD i none
          = runSim month F { factory (sampleAll dists (seedRNG (s + i))).1
                              with name := "Sim_" ++ toString i } := by
  refine ⟨rfl, by simp [buildSimulations], ?_⟩
  intro i hi
  unfold buildSimulations
  have h1 : ((List.range num).map (buildOne month F factory dists (some s) g1))[i]?
      = some (buildOne month F factory dists (some s) g1 i) := by
    rw [List.getElem?_map, List.getElem?_range hi]
    rfl
  rw [List.getD_eq_getElem?_getD, h1]
  rfl

/-- `_build_one` when constructing the trial's simulation can raise
(e.g. an invalid generator configuration): the Python exception is an
`Except.error`. -/
def buildOneE (month : ℕ → ℕ) (F : ℕ)
    (factoryE : List (String × PValue) → Except String Simulation)
    (dists : List (String × (RNG → PValue × RNG)))
    (baseSeed : Option ℕ) (g : RNG) (i : ℕ) : Except String (Option Simulation) :=
  let g0 := match baseSeed with
    | some s => seedRNG (s + i)
    | none => g
  let params := (sampleAll dists g0).1
  match factoryE params with
  | .error err => .error err
  | .ok sim => .ok (runSim month F { sim with name := "Sim_" ++ toString i })

/-- `build_simulations` with fallible trials.
`list(executor.map(build_func, range(num)))` raises the earliest failing
trial's exception while collecting the results, discarding every other
trial's outcome — the collection is a `mapM` over `Except`. -/
def buildSimulationsE (month : ℕ → ℕ) (F : ℕ)
    (factoryE : List (String × PValue) → Except String Simulation)
    (dists : List (String × (RNG → PValue × RNG)))
    (num : ℕ) (seed : Option ℕ) (g : RNG) :
    Except String (List (Option Simulation)) :=
  (List.range num).mapM (buildOneE month F factoryE dists seed g)

/-- A parameter distribution whose sample reveals the trial's seeded
random state, used to make exactly one trial fail below. -/
def c9Dists : List (String × (RNG → PValue × RNG)) :=
  [("i", fun g => (.dtime g, g))]

/-- A factory that raises for the parameter set sampled by trial 1 only
and otherwise builds a trivial simulation (no builders: its run
terminates immediately). -/
def c9Factory (params : List (String × PValue)) : Except String Simulation :=
  if params.lookup "i" = some (.dtime 1) then
    .error "invalid generator configuration"
  else
    .ok { name := "s", start := 0, endTime := 0, params := params,
          builders := [], processes := [], events := [], state := [],
          stateHistory := [] }

lemma mapM_error_append {α β : Type} (f : α → Except String β) :
    ∀ (l1 : List α) (a : α) (l2 : List α) (err : String),
      (∀ x ∈ l1, ∃ r, f x = .ok r) → f a = .error err →
      (l1 ++ a :: l2).mapM f = .error err := by
  intro l1
  induction l1 with
  | nil =>
      intro a l2 err _ hfail
      rw [List.nil_append, List.mapM_cons, hfail]
      rfl
  | cons x l1 ih =>
      intro a l2 err hok hfail
      obtain ⟨r, hr⟩ := hok x (List.mem_cons_self x l1)
      rw [List.cons_append, List.mapM_cons, hr]
      have hrest := ih a l2 err (fun y hy => hok y (List.mem_cons_of_mem x hy)) hfail
      show (List.mapM f (l1 ++ a :: l2)).bind _ = _
      rw [hrest]
      rfl

/-- C9, amended: a failing trial aborts the whole collection — the
error of the earliest failing trial propagates out of
`build_simulations`, and no list of per-trial outcomes is returned. -/
theorem build_simulations_error_propagates (month : ℕ → ℕ) (F : ℕ)
    (factoryE : List (String × PValue) → Except String Simulation)
    (dists : List (String × (RNG → PValue × RNG)))
    (num : ℕ) (seed : Option ℕ) (g : RNG) (i : ℕ) (err : String)
    (hi : i < num)
    (hfail : buildOneE month F factoryE dists seed g i = .error err)
    (hok : ∀ j, j < i → ∃ r, buildOneE month F factoryE dists seed g j = .ok r) :
    buildSimulationsE month F factoryE dists num seed g = .error err := by
  unfold buildSimulationsE
  have hnum : num = (i + 1) + (num - i - 1) := by omega
  rw [hnum, List.range_add, List.range_succ, List.append_assoc,
      List.singleton_append]
  exact mapM_error_append _ (List.range i) i _ err
    (fun x hx => hok x (List.mem_range.mp hx)) hfail

/-- Witness for C9's amended theorem: with three trials seeded from 0
and a factory rejecting trial 1's parameters, the whole build returns
that trial's error. -/
theorem build_simulations_error_propagates_witness :
    buildSimulationsE (fun _ => 0) 1 c9Factory c9Dists 3 (some 0) 0
      = .error "invalid generator configuration" :=
  build_simulations_error_propagates (fun _ => 0) 1 c9Factory c9Dists 3
    (some 0) 0 1 "invalid generator configuration" (by norm_num) (by rfl)
    (by
      intro j hj
      interval_cases j
      exact ⟨_, rfl⟩)

/-- C9, counterexample to the claim as stated: with three trials, trial
1 failing, `build_simulations` neither runs to a list nor reports the
other trials — it returns the single error, and no list of outcomes
(of any length) is produced. -/
theorem one_failing_trial_aborts_build :
    buildSimulationsE (fun _ => 0) 1 c9Factory c9Dists 3 (some 0) 0
      = .error "invalid generator configuration"
    ∧ ¬ ∃ outs : List (Option Simulation),
        buildSimulationsE (fun _ => 0) 1 c9Factory c9Dists 3 (some 0) 0
          = .ok outs := by
  constructor
  · rfl
  · rintro ⟨outs, houts⟩
    rw [show buildSimulationsE (fun _ => 0) 1 c9Factory c9Dists 3 (some 0) 0
        = .error "invalid generator configuration" from rfl] at houts
    cases houts
/-! ## C7: the result-serialization round trip -/

/-- Modelled from the spec: a value as it appears in the serialized
result dictionary.  Timestamps serialize as ISO-8601 strings
(`datetime.isoformat()`); the `iso` constructor stands for exactly
those strings — each contains `'-'` (`YYYY-MM-DD…`) — while `str` is
any other string and `num` a number.  `datetime.fromisoformat` succeeds
exactly on ISO-8601 strings and raises `ValueError` otherwise (a string
such as `"a-b"` is not ISO-8601). -/
inductive SValue : Type
  | num (q : ℚ)
  | str (s : String)
  | iso (t : ℕ)
  deriving DecidableEq, Repr

/-- `datetime.fromisoformat` on a serialized value, as an `Option`. -/
def fromisoformatS : SValue → Option ℕ
  | .iso t => some t
  | _ => none

/-- Serializing one params value (`Simulation.to_dict`):
`v.isoformat() if isinstance(v, dt.datetime) else v`. -/
def serializeParam : PValue → SValue
  | .num q => .num q
  | .str s => .str s
  | .dtime t => .iso t

/-- Parsing one params value (`Simulation.from_dict`):
`dt.datetime.fromisoformat(v) if isinstance(v, str) and '-' in v else v`.
An ISO string contains `'-'` and parses back to its datetime; a plain
string containing `'-'` is fed to `fromisoformat` too, which raises
(`none`); everything else is kept as-is. -/
def parseParam : SValue → Option PValue
  | .num q => some (.num q)
  | .iso t => some (.dtime t)
  | .str s => if s.data.contains (Char.ofNat 45) then none else some (.str s)

/-- `Event.to_dict()`: `asdict(self)` with `time` replaced by its
ISO-8601 string. -/
structure EventDict where
  time : SValue
  value : ℚ
  metadata : List (String × MValue)
  deriving DecidableEq, Repr

def eventToDict (ev : Event) : EventDict :=
  { time := .iso ev.time, value := ev.value, metadata := ev.metadata }

/-- `Event.from_dict(d)`: parse `time` back from its ISO string. -/
def eventFromDict (d : EventDict) : Option Event :=
  match fromisoformatS d.time with
  | some t => some { time := t, value := d.value, metadata := d.metadata }
  | none => none

/-- The serialized form of a completed trial (`Simulation.to_dict`):
name, ISO start/end, serialized params, serialized events, the state,
and the state history keyed by ISO timestamps.  Builders and processes
are not serialized. -/
structure SimDict where
  name : String
  start : SValue
  endTime : SValue
  params : List (String × SValue)
  events : List EventDict
  state : List (String × ℚ)
  stateHistory : List (SValue × List (String × ℚ))
  deriving Repr

def simToDict (sim : Simulation) : SimDict :=
  { name := sim.name, start := .iso sim.start, endTime := .iso sim.endTime,
    params := sim.params.map (fun p => (p.1, serializeParam p.2)),
    events := sim.events.map eventToDict,
    state := sim.state,
    stateHistory := sim.stateHistory.map (fun p => ((.iso p.1 : SValue), p.2)) }

/-- Parsing each element of a serialized list, failing (raising) as soon
as one element fails. -/
def parseList {α β : Type} (f : α → Option β) : List α → Option (List β)
  | [] => some []
  | a :: l =>
      match f a with
      | none => none
      | some b =>
          match parseList f l with
          | none => none
          | some bs => some (b :: bs)

/-- `Simulation.from_dict(d)` as an `Option` (`fromisoformat` raises on
a non-ISO string): parse the params (any string containing `'-'` is fed
to `fromisoformat`), the start and end, the events, and the
state-history keys; builders and processes are left empty. -/
def simFromDict (d : SimDict) : Option Simulation :=
  match parseList (fun p => (parseParam p.2).map (fun v => (p.1, v))) d.params,
      fromisoformatS d.start, fromisoformatS d.endTime,
      parseList eventFromDict d.events,
      parseList (fun p => (fromisoformatS p.1).map (fun t => (t, p.2)))
        d.stateHistory with
  | some ps, some st, some en, some evs, some hist =>
      some { name := d.name, start := st, endTime := en, params := ps,
             builders := [], processes := [], events := evs, state := d.state,
             stateHistory := hist }
  | _, _, _, _, _ => none

/-- A params value that survives the round trip: not a plain string
containing `'-'` (`from_dict` would feed such a string to
`fromisoformat`). -/
def paramOk : PValue → Bool
  | .str s => !(s.data.contains (Char.ofNat 45))
  | _ => true

lemma parseParam_serializeParam (v : PValue) (h : paramOk v = true) :
    parseParam (serializeParam v) = some v := by
  cases v with
  | num q => rfl
  | dtime t => rfl
  | str s =>
      have hs : (Char.ofNat 45) ∉ s.data := by
        simpa [paramOk] using h
      simp [serializeParam, parseParam, hs]

lemma params_roundtrip (ps : List (String × PValue))
    (h : ps.all (fun p => paramOk p.2) = true) :
    parseList (fun p => (parseParam p.2).map (fun v => (p.1, v)))
        (ps.map (fun p => (p.1, serializeParam p.2))) = some ps := by
  induction ps with
  | nil => rfl
  | cons p rest ih =>
      simp only [List.all_cons, Bool.and_eq_true] at h
      rw [List.map_cons]
      dsimp only [parseList]
      rw [parseParam_serializeParam p.2 h.1, ih h.2]
      rfl

lemma events_roundtrip (evs : List Event) :
    parseList eventFromDict (evs.map eventToDict) = some evs := by
  induction evs with
  | nil => rfl
  | cons ev rest ih =>
      rw [List.map_cons]
      dsimp only [parseList]
      rw [show eventFromDict (eventToDict ev) = some ev from rfl, ih]

lemma history_roundtrip (hist : List (ℕ × List (String × ℚ))) :
    parseList (fun p => (fromisoformatS p.1).map (fun t => (t, p.2)))
        (hist.map (fun p => ((.iso p.1 : SValue), p.2))) = some hist := by
  induction hist with
  | nil => rfl
  | cons p rest ih =>
      rw [List.map_cons]
      dsimp only [parseList]
      rw [show fromisoformatS (SValue.iso p.1) = some p.1 from rfl, ih]
      rfl

/-- C7, amended.  For every completed simulation none of whose params
values is a plain string containing `'-'` — number and datetime params,
as the distributions sample, always qualify — parsing the serialized
form yields a simulation with identical name, start, end, params,
events (times, values, metadata), state and state history; and
`Event.from_dict(Event.to_dict(e)) = e` unconditionally for every
event.  (A plain string param containing `'-'` is fed to
`fromisoformat` by `from_dict` and the round trip fails: see the
counterexample.) -/
theorem serialization_roundtrip (x : Simulation)
    (h : x.params.all (fun p => paramOk p.2) = true) :
    (∃ y : Simulation, simFromDict (simToDict x) = some y
      ∧ y.name = x.name ∧ y.start = x.start ∧ y.endTime = x.endTime
      ∧ y.params = x.params ∧ y.events = x.events ∧ y.state = x.state
      ∧ y.stateHistory = x.stateHistory)
    ∧ ∀ ev : Event, eventFromDict (eventToDict ev) = some ev := by
  refine ⟨?_, fun ev => rfl⟩
  refine ⟨{ name := x.name, start := x.start, endTime := x.endTime,
            params := x.params, builders := [], processes := [],
            events := x.events, state := x.state,
            stateHistory := x.stateHistory },
          ?_, rfl, rfl, rfl, rfl, rfl, rfl, rfl⟩
  unfold simFromDict simToDict
  dsimp only
  rw [params_roundtrip x.params h, events_roundtrip x.events,
      history_roundtrip x.stateHistory,
      show fromisoformatS (SValue.iso x.start) = some x.start from rfl,
      show fromisoformatS (SValue.iso x.endTime) = some x.endTime from rfl]

/-- The C7 counterexample input: a completed simulation carrying the
plain string parameter `"a-b"`. -/
def dashParamSim : Simulation :=
  { name := "s", start := 0, endTime := 1, params := [("k", .str "a-b")],
    builders := [], processes := [], events := [], state := [],
    stateHistory := [] }

/-- C7, counterexample to the claim as stated: on `dashParamSim`,
`from_dict(to_dict(x))` does not reproduce `x` — the parameter value
`"a-b"` contains `'-'`, so `from_dict` feeds it to
`datetime.fromisoformat`, which raises: no simulation at all is
recovered. -/
theorem roundtrip_fails_on_dash_string_param :
    simFromDict (simToDict dashParamSim) = none
    ∧ ¬ ∃ y : Simulation, simFromDict (simToDict dashParamSim) = some y := by
  have h : simFromDict (simToDict dashParamSim) = none := by
    have hdash : (Char.ofNat 45) ∈ "a-b".data := by decide
    simp [simFromDict, simToDict, dashParamSim, parseParam, serializeParam,
      parseList, hdash]
  refine ⟨h, ?_⟩
  rintro ⟨y, hy⟩
  rw [h] at hy
  cases hy

/-- Witness input for C7's amended theorem: a completed trial with a
number, a datetime and a dash-free string parameter, one event, a state
and a two-point state history. -/
def roundtripSim : Simulation :=
  { name := "trial", start := 0, endTime := 59,
    params := [("rate", .num (6 / 100)), ("d0", .dtime 7), ("label", .str "x")],
    builders := [], processes := [],
    events := [⟨30, -5, [("interest", .num 1)]⟩],
    state := [("cumulative_cash", -5)],
    stateHistory := [(0, [("cumulative_cash", 0)]),
                     (30, [("cumulative_cash", -5)])] }

/-- Witness for C7's amended theorem at `roundtripSim`. -/
theorem serialization_roundtrip_witness :
    (roundtripSim.params.all (fun p => paramOk p.2) = true)
    ∧ ((∃ y : Simulation, simFromDict (simToDict roundtripSim) = some y
        ∧ y.name = roundtripSim.name ∧ y.start = roundtripSim.start
        ∧ y.endTime = roundtripSim.endTime ∧ y.params = roundtripSim.params
        ∧ y.events = roundtripSim.events ∧ y.state = roundtripSim.state
        ∧ y.stateHistory = roundtripSim.stateHistory)
      ∧ ∀ ev : Event, eventFromDict (eventToDict ev) = some ev) :=
  ⟨by decide, serialization_roundtrip roundtripSim (by decide)⟩

/-! ## C10: `AppreciationProcess.advance` -/

/-- The compounding factor `(1 + self.rate) ** delta_years` with
`delta_years = delta.days / 365.25` — a real power with fractional
exponent, the engine's one non-rational computation. -/
noncomputable def appreciationFactor (rate : ℚ) (deltaDays : ℤ) : ℝ :=
  (1 + (rate : ℝ)) ^ ((deltaDays : ℝ) / 365.25)

/-- `AppreciationProcess.advance(state, delta)`: if the configured key
`var` is in the state, multiply its value in place by the compounding
factor; otherwise do nothing.  (A Python dict has unique keys; on the
association-list model the update maps over all entries of that key.) -/
noncomputable def appreciationAdvance (rate : ℚ) (var : String)
    (state : List (String × ℝ)) (deltaDays : ℤ) : List (String × ℝ) :=
  if (state.lookup var).isSome then
    state.map (fun p =>
      if p.1 = var then (p.1, p.2 * appreciationFactor rate deltaDays) else p)
  else state

lemma appreciation_keys (c : ℝ) (var : String) :
    ∀ st : List (String × ℝ),
      (st.map (fun p : String × ℝ =>
        if p.1 = var then (p.1, p.2 * c) else p)).map Prod.fst
        = st.map Prod.fst := by
  intro st
  induction st with
  | nil => rfl
  | cons p rest ih =>
      simp only [List.map_cons, ih, List.cons.injEq, and_true]
      by_cases hp : p.1 = var
      · simp [hp]
      · simp [hp]

lemma appreciation_lookup_other (c : ℝ) (var k : String) (hk : k ≠ var) :
    ∀ st : List (String × ℝ),
      (st.map (fun p : String × ℝ =>
        if p.1 = var then (p.1, p.2 * c) else p)).lookup k = st.lookup k := by
  intro st
  induction st with
  | nil => rfl
  | cons p rest ih =>
      obtain ⟨a, b⟩ := p
      rw [List.map_cons]
      by_cases hav : a = var
      · have hfa : (if (a, b).1 = var then ((a, b).1, (a, b).2 * c) else (a, b))
            = (a, b * c) := by simp [hav]
        rw [hfa]
        have hka : (k == a) = false :=
          beq_eq_false_iff_ne.mpr (fun h => hk (h.trans hav))
        simp [List.lookup, hka, ih]
      · have hfa : (if (a, b).1 = var then ((a, b).1, (a, b).2 * c) else (a, b))
            = (a, b) := by simp [hav]
        rw [hfa]
        simp [List.lookup, ih]

lemma appreciation_lookup_var (c : ℝ) (var : String) :
    ∀ (st : List (String × ℝ)) (v : ℝ), st.lookup var = some v →
      (st.map (fun p : String × ℝ =>
        if p.1 = var then (p.1, p.2 * c) else p)).lookup var = some (v * c) := by
  intro st
  induction st with
  | nil => intro v hv; cases hv
  | cons p rest ih =>
      obtain ⟨a, b⟩ := p
      intro v hv
      rw [List.map_cons]
      by_cases hav : a = var
      · subst hav
        have hfa : (if (a, b).1 = a then ((a, b).1, (a, b).2 * c) else (a, b))
            = (a, b * c) := by simp
        rw [hfa]
        have hva : (a == a) = true := by simp
        simp only [List.lookup, hva] at hv
        obtain rfl : b = v := by simpa using hv
        simp [List.lookup, hva]
      · have hfa : (if (a, b).1 = var then ((a, b).1, (a, b).2 * c) else (a, b))
            = (a, b) := by simp [hav]
        rw [hfa]
        have hva : (var == a) = false :=
          beq_eq_false_iff_ne.mpr (fun h => hav h.symm)
        simp only [List.lookup, hva] at hv
        simp [List.lookup, hva, ih v hv]

/-- C10.  `AppreciationProcess.advance` modifies at most the configured
key `var`: the key sequence of the state is unchanged (nothing added or
removed), every key other than `var` keeps its value, a present `var`
is multiplied by `(1 + rate) ** (delta.days / 365.25)`, and when `var`
is absent the state is returned entirely unchanged. -/
theorem appreciation_advance_frame (rate : ℚ) (var : String)
    (state : List (String × ℝ)) (d : ℤ) :
    (appreciationAdvance rate var state d).map Prod.fst = state.map Prod.fst
    ∧ (∀ k : String, k ≠ var →
        (appreciationAdvance rate var state d).lookup k = state.lookup k)
    ∧ (∀ v : ℝ, state.lookup var = some v →
        (appreciationAdvance rate var state d).lookup var
          = some (v * appreciationFactor rate d))
    ∧ (state.lookup var = none → appreciationAdvance rate var state d = state) := by
  unfold appreciationAdvance
  by_cases hmem : (state.lookup var).isSome
  · rw [if_pos hmem]
    refine ⟨appreciation_keys _ var state, ?_, ?_, ?_⟩
    · intro k hk
      exact appreciation_lookup_other _ var k hk state
    · intro v hv
      exact appreciation_lookup_var _ var state v hv
    · intro hnone
      rw [hnone] at hmem
      cases hmem
  · rw [if_neg hmem]
    refine ⟨rfl, fun _ _ => rfl, ?_, fun _ => rfl⟩
    intro v hv
    rw [hv] at hmem
    exact absurd rfl hmem

end FinSim
